import Mathlib

/-!
Verification of `src/splunk_app_deployer.py`.

The development shallowly embeds the core deployment logic of the script:
the version-string pattern matching (`re.match(r'^\d+\.\d+\.\d+$', ...)` in
`prompt_for_version`), the label rewrite of `update_app_version`
(`re.sub(r'\s+v\d+\.\d+\.\d+.*$', ...)` followed by
`re.sub(r'\s*\([^)]*\)$', ...)` and `.strip()`), the descriptor file
(`app.conf`) as a sectioned key-value structure matching `configparser`'s
parsed representation, the structure validator, the per-unit deployment
pipeline of `deploy_app` as a trace of filesystem-effect events, the
session loop of `DeploymentManager.run`, and the source-directory listing
of `list_available_apps`.

Pure strings are modelled as `List Char` where convenient; all labels and
descriptor values handled by the script are single-line `configparser`
values, so the model does not reproduce CPython's special treatment of a
trailing newline at a `$` anchor.
-/

namespace Splunk

set_option maxRecDepth 10000

/-- Consume one-or-more digits from the head of the list (`\d+` with maximal
munch; in the patterns below every `\d+` is followed by `\.` or by the end of
the pattern, so maximal munch agrees with backtracking semantics). Returns
`none` when the head is not a digit. -/
def eatDigits1 : List Char → Option (List Char)
  | [] => none
  | c :: rest => if c.isDigit then some (rest.dropWhile Char.isDigit) else none

/-- The pattern `v\d+\.\d+\.\d+` matching at the head of the list, with the
remainder unconstrained (the `.*$` tail of the substitution pattern on
line 212 of the source). -/
def matchVTriple (l : List Char) : Bool :=
  match l with
  | 'v' :: r =>
    match eatDigits1 r with
    | some ('.' :: r2) =>
      match eatDigits1 r2 with
      | some ('.' :: r3) => (eatDigits1 r3).isSome
      | _ => false
    | _ => false
  | _ => false

/-- The pattern `\s+v\d+\.\d+\.\d+` matching at the head of the list. -/
def matchWsVTriple : List Char → Bool
  | [] => false
  | c :: rest => c.isWhitespace && matchVTriple (rest.dropWhile Char.isWhitespace)

/-- `re.sub(r'\s+v\d+\.\d+\.\d+.*$', '', l)` (source line 212): delete from
the leftmost occurrence of the pattern to the end of the string. -/
def stripVS : List Char → List Char
  | [] => []
  | c :: rest => if matchWsVTriple (c :: rest) then [] else c :: stripVS rest

/-- The pattern `\s*\([^)]*\)$` matching at the head of the list: optional
whitespace, an opening bracket, and the first following closing bracket is
the final character of the string. -/
def matchParenEnd (l : List Char) : Bool :=
  match l.dropWhile Char.isWhitespace with
  | '(' :: rest => rest.dropWhile (fun c => c != ')') == [')']
  | _ => false

/-- `re.sub(r'\s*\([^)]*\)$', '', l)` (source line 213): delete the leftmost
(equivalently, the unique end-anchored) occurrence of the pattern. -/
def stripParen : List Char → List Char
  | [] => []
  | c :: rest => if matchParenEnd (c :: rest) then [] else c :: stripParen rest

/-- Python `str.strip()`: remove leading and trailing whitespace. -/
def pyStrip (l : List Char) : List Char :=
  List.rdropWhile Char.isWhitespace (l.dropWhile Char.isWhitespace)

/-- The base label computed by `update_app_version` (source lines 212-213)
before the new version suffix is appended: strip a version suffix, strip a
trailing parenthesized suffix, then `.strip()`. -/
def strippedBase (label : String) : List Char :=
  pyStrip (stripParen (stripVS label.toList))

/-- The label rewrite of `update_app_version` (source lines 208-214):
`f"{base_label} v{version}"` over the stripped base label. -/
def rewriteLabel (label version : String) : String :=
  ⟨strippedBase label ++ ' ' :: 'v' :: version.toList⟩

/-- The strict version pattern `^\d+\.\d+\.\d+$` of `prompt_for_version`
(source line 359): exactly three nonempty digit runs separated by dots. -/
def isTriple (l : List Char) : Bool :=
  match eatDigits1 l with
  | some ('.' :: r2) =>
    match eatDigits1 r2 with
    | some ('.' :: r3) => decide (eatDigits1 r3 = some [])
    | _ => false
  | _ => false

/-- The version-resolution logic of `prompt_for_version` (source lines
353-363): the requested string is kept only when it matches the strict
pattern, otherwise the current version is kept. The empty requested string
(operator pressed Enter) does not match the pattern and so also keeps the
current version, exactly as the early return on line 355 does. -/
def resolveVersion (requested current : String) : String :=
  if isTriple requested.toList then requested else current

/-- Specification-side characterisation of the strict numeric triple
pattern `^\d+\.\d+\.\d+$`: the string decomposes as three nonempty all-digit
runs separated by literal dots. -/
def tripleShape (s : String) : Prop :=
  ∃ a b c : List Char,
    a ≠ [] ∧ b ≠ [] ∧ c ≠ [] ∧
    (∀ x ∈ a, x.isDigit) ∧ (∀ x ∈ b, x.isDigit) ∧ (∀ x ∈ c, x.isDigit) ∧
    s.toList = a ++ '.' :: b ++ '.' :: c

/-! Descriptor file model.  `configparser`'s parsed representation of
`default/app.conf`: an ordered list of sections, each an ordered list of
key-value pairs (§9 of the spec models the descriptor exactly this way). -/

/-- Parsed descriptor: ordered sections of ordered key-value pairs. -/
abbrev Config := List (String × List (String × String))

/-- `config.has_section(s)`. -/
def hasSection (c : Config) (s : String) : Bool :=
  c.any (fun sec => sec.1 == s)

/-- `config.get(s, k)` combined with the `has_section`/`has_option` guards:
`some` value when the section exists and holds the key, `none` otherwise. -/
def getOpt (c : Config) (s k : String) : Option String :=
  match c.find? (fun sec => sec.1 == s) with
  | some sec => (sec.2.find? (fun kv => kv.1 == k)).map (fun kv => kv.2)
  | none => none

/-- Set key `k` to `v` inside one section's pair list: overwrite in place if
the key exists, append otherwise (`configparser` keeps insertion order). -/
def setKV (kvs : List (String × String)) (k v : String) : List (String × String) :=
  match kvs with
  | [] => [(k, v)]
  | kv :: rest => if kv.1 == k then (k, v) :: rest else kv :: setKV rest k v

/-- `config.set(s, k, v)`: update key `k` in section `s`. -/
def setOpt (c : Config) (s k v : String) : Config :=
  c.map (fun sec => if sec.1 == s then (sec.1, setKV sec.2 k v) else sec)

/-- `if not config.has_section(s): config.add_section(s)` (source lines
198-199 and 204-205). -/
def ensureSection (c : Config) (s : String) : Config :=
  if hasSection c s then c else c ++ [(s, [])]

/-- The label-rewrite step of `update_app_version` (source lines 208-214):
when `launcher.label` exists, replace it with the stripped base label plus
the new version suffix; otherwise leave the descriptor unchanged. -/
def update_label (c : Config) (version : String) : Config :=
  match getOpt c "launcher" "label" with
  | some lbl => setOpt c "launcher" "label" (rewriteLabel lbl version)
  | none => c

/-- The descriptor transformation performed by the success path of
`SplunkAppManager.update_app_version` (source lines 192-218): set
`launcher.version`, set `install.build` to the build stamp, and rewrite
`launcher.label` when present.  The build stamp is time-derived in the
source (`datetime.now().strftime('%Y%m%d%H%M')`) and is a parameter here. -/
def update_app_version (c : Config) (version build : String) : Config :=
  update_label
    (setOpt (ensureSection (setOpt (ensureSection c "launcher") "launcher" "version" version)
      "install") "install" "build" build)
    version

/-- Python `value.strip('"')` (source line 153): remove every leading and
trailing double-quote character. -/
def stripQuotes (s : String) : String :=
  ⟨List.rdropWhile (fun c => c == '"') (s.toList.dropWhile (fun c => c == '"'))⟩

/-- The observable ways reading `default/app.conf` can go in
`get_current_version`: the file is missing, `config.read` raises (caught on
line 156), or parsing yields a descriptor. -/
inductive ReadOutcome where
  | missing : ReadOutcome
  | unreadable : ReadOutcome
  | parsed : Config → ReadOutcome

/-- `SplunkAppManager.get_current_version` (source lines 139-157): default
`"1.0.0"` when the file is missing or unreadable; otherwise try the
`launcher` section then the `install` section for a `version` key, stripping
surrounding quotes; default `"1.0.0"` when neither holds the key. -/
def get_current_version : ReadOutcome → String
  | .missing => "1.0.0"
  | .unreadable => "1.0.0"
  | .parsed c =>
    match getOpt c "launcher" "version" with
    | some v => stripQuotes v
    | none =>
      match getOpt c "install" "version" with
      | some v => stripQuotes v
      | none => "1.0.0"

/-- Modelled from the spec (§4.1 `readVersion`): check the fallback sections
in priority order — the first section in `[launcher, install]` holding a
`version` key supplies the value, quotes stripped — and degrade to
`"1.0.0"` in every other case. -/
def spec_readVersion (r : ReadOutcome) : String :=
  match r with
  | .parsed c =>
    (((["launcher", "install"].filterMap (fun s => getOpt c s "version")).head?).map
      stripQuotes).getD "1.0.0"
  | _ => "1.0.0"

/-! Structure validation and the per-unit deployment pipeline. -/

/-- Presence of the four required paths of a deployment unit
(`validate_app_structure`, source lines 159-180). -/
structure AppDir where
  defaultDir : Bool
  metadataDir : Bool
  appConf : Bool
  defaultMeta : Bool
deriving DecidableEq, Fintype

/-- The four required paths, in the order the source checks them:
directories first (line 166), then files (line 173). -/
def requiredPaths : List String :=
  ["default", "metadata", "default/app.conf", "metadata/default.meta"]

/-- Whether the unit has the given required path. -/
def hasPath (a : AppDir) (p : String) : Bool :=
  if p == "default" then a.defaultDir
  else if p == "metadata" then a.metadataDir
  else if p == "default/app.conf" then a.appConf
  else if p == "metadata/default.meta" then a.defaultMeta
  else false

/-- `SplunkAppManager.validate_app_structure` (source lines 159-180):
returns the boolean outcome together with the path named by the error log
on the first missing element (`none` on success). -/
def validate_app_structure (a : AppDir) : Bool × Option String :=
  if !a.defaultDir then (false, some "default")
  else if !a.metadataDir then (false, some "metadata")
  else if !a.appConf then (false, some "default/app.conf")
  else if !a.defaultMeta then (false, some "metadata/default.meta")
  else (true, none)

/-- Filesystem-effect events of one unit's pipeline: creation of the backup
archive, the (attempted) descriptor write in the source tree, and the two
destructive actions against the target directory. -/
inductive Event where
  | backup : Event
  | writeMetadata : Event
  | removeTarget : Event
  | copyTarget : Event
deriving DecidableEq

/-- Environment of one `deploy_app` invocation: the source unit's shape and
the success/failure outcome of each side-effecting step, abstracting the
filesystem and archiver. -/
structure Env where
  app : AppDir
  targetExists : Bool
  backupOk : Bool
  versionOk : Bool
  removeOk : Bool
  copyOk : Bool
deriving DecidableEq, Fintype

/-- `DeploymentManager.backup_existing_app` (source lines 365-387): no-op
success when no target directory exists; otherwise attempt the archive and
report failure without raising. -/
def backup_existing_app (targetExists backupOk : Bool) : Bool × List Event :=
  if !targetExists then (true, [])
  else if backupOk then (true, [Event.backup])
  else (false, [])

/-- `DeploymentManager.deploy_app` (source lines 389-432) as a trace
machine: validate, back up, stamp the version into the source descriptor,
then remove any existing target and copy the source tree over.  A failing
step ends the trace with result `false`; the `removeTarget`/`copyTarget`
events are recorded when the corresponding action is attempted (a failing
`rmtree`/`copytree` has already acted on the target). -/
def deploy_app (e : Env) : Bool × List Event :=
  if !(validate_app_structure e.app).1 then (false, [])
  else
    let b := backup_existing_app e.targetExists e.backupOk
    if !b.1 then (false, b.2)
    else
      let tr1 := b.2 ++ [Event.writeMetadata]
      if !e.versionOk then (false, tr1)
      else if e.targetExists then
        if !e.removeOk then (false, tr1 ++ [Event.removeTarget])
        else if !e.copyOk then (false, tr1 ++ [Event.removeTarget, Event.copyTarget])
        else (true, tr1 ++ [Event.removeTarget, Event.copyTarget])
      else
        if !e.copyOk then (false, tr1 ++ [Event.copyTarget])
        else (true, tr1 ++ [Event.copyTarget])

/-- Destructive actions against the target directory. -/
def destructive : Event → Bool
  | .removeTarget => true
  | .copyTarget => true
  | _ => false

/-- No destructive event occurs before the first `backup` event. -/
def backupPrecedesHarm : List Event → Bool
  | [] => true
  | Event.backup :: _ => true
  | ev :: rest => !destructive ev && backupPrecedesHarm rest

/-! Session loop and process exit. -/

/-- The per-unit loop of `DeploymentManager.run` (source lines 760-781):
every selected unit is attempted in order; `f` is the combined outcome of
`deploy_app` and `validate_deployment` for a unit.  Returns the attempted
units and the successfully deployed units, both in order. -/
def run_loop (f : String → Bool) : List String → List String × List String
  | [] => ([], [])
  | u :: rest =>
    let r := run_loop f rest
    (u :: r.1, if f u then u :: r.2 else r.2)

/-- The process exit status of `main` (source lines 847-859) on the path
where `run` returns: per-unit failures are caught inside `deploy_app` and
reported through the logger, no exception propagates, and the interpreter
exits with status 0.  (`sys.exit(1)` is reached only for interrupts and
unhandled exceptions, which are outside the per-unit failure path.) -/
def main_exit (f : String → Bool) (units : List String) : Nat :=
  let _ := run_loop f units
  0

/-! Source-root listing. -/

/-- One entry of `apps_source_dir.iterdir()`: its name, whether it is a
directory, and whether `<entry>/default/app.conf` exists. -/
structure DirEntry where
  name : String
  isDir : Bool
  hasAppConf : Bool

/-- `SplunkAppManager.list_available_apps` (source lines 124-137) over a
source root that either does not exist (`none`) or yields directory
entries: keep the directories containing `default/app.conf` and sort the
names. -/
def list_available_apps (root : Option (List DirEntry)) : List String :=
  match root with
  | none => []
  | some entries =>
    List.mergeSort ((entries.filter (fun en => en.isDir && en.hasAppConf)).map DirEntry.name)

/-! In-place descriptor write.  `update_app_version` writes the updated
descriptor back with `open(app_conf_path, 'w')` (source line 217): the
target file itself is truncated and rewritten, with no temporary file and
no rename. -/

/-- Render one key-value pair the way `configparser.write` does. -/
def renderKV (kv : String × String) : List Char :=
  kv.1.toList ++ ' ' :: '=' :: ' ' :: kv.2.toList ++ ['\n']

/-- Render one section the way `configparser.write` does. -/
def renderSection (sec : String × List (String × String)) : List Char :=
  '[' :: sec.1.toList ++ ']' :: '\n' :: (sec.2.map renderKV).flatten ++ ['\n']

/-- Render a whole descriptor the way `configparser.write` does. -/
def render (c : Config) : List Char :=
  (c.map renderSection).flatten

/-- The file contents observable on disk at the possible failure points of
an in-place truncate-and-rewrite of a file whose previous content was
`oldC` and whose new content is `newC`: the old content (before the
`open`), then every prefix of the new content (the empty file right after
truncation, each partial write, and the complete new content). -/
def inPlaceWriteStates (oldC newC : List Char) : List (List Char) :=
  oldC :: (List.range (newC.length + 1)).map (fun i => newC.take i)

/-- Disk states reachable while `update_app_version` rewrites the
descriptor `c` (previous file text `oldText`) to version `version` and
build `build`. -/
def update_write_states (c : Config) (version build : String) (oldText : List Char) :
    List (List Char) :=
  inPlaceWriteStates oldText (render (update_app_version c version build))

/-- The pair list of section `s`, when the section exists. -/
def findSection (c : Config) (s : String) : Option (List (String × String)) :=
  (c.find? (fun sec => sec.1 == s)).map (fun sec => sec.2)

/-- No suffix of the list begins with the pattern `\s+v\d+\.\d+\.\d+`:
the list holds no occurrence of the version-suffix pattern at all. -/
def noOcc : List Char → Bool
  | [] => true
  | c :: rest => !matchWsVTriple (c :: rest) && noOcc rest

/-- The list does not end in a whitespace character. -/
def noTrailWs : List Char → Bool
  | [] => true
  | c :: rest => if rest.isEmpty then !c.isWhitespace else noTrailWs rest

/-! Theorems. -/

theorem eatDigits1_eq_some {l r : List Char} (h : eatDigits1 l = some r) :
    ∃ a, a ≠ [] ∧ (∀ x ∈ a, x.isDigit) ∧ l = a ++ r := by
  cases l with
  | nil => simp [eatDigits1] at h
  | cons c t =>
    simp only [eatDigits1] at h
    by_cases hc : c.isDigit
    · rw [if_pos hc] at h
      refine ⟨c :: t.takeWhile Char.isDigit, by simp, ?_, ?_⟩
      · intro x hx
        rcases List.mem_cons.1 hx with rfl | hx
        · exact hc
        · exact List.mem_takeWhile_imp hx
      · rw [← Option.some_inj.1 h]
        simp [List.takeWhile_append_dropWhile]
    · rw [if_neg hc] at h
      exact absurd h (by simp)

theorem eatDigits1_digits_append {a : List Char} (rest : List Char) (ha : a ≠ [])
    (hd : ∀ x ∈ a, x.isDigit) :
    eatDigits1 (a ++ rest) = some (rest.dropWhile Char.isDigit) := by
  cases a with
  | nil => exact absurd rfl ha
  | cons c t =>
    simp only [List.cons_append, eatDigits1, if_pos (hd c (List.mem_cons_self c t))]
    rw [List.dropWhile_append_of_pos (fun x hx => hd x (List.mem_cons_of_mem c hx))]

theorem isTriple_iff (s : String) : isTriple s.toList = true ↔ tripleShape s := by
  constructor
  · intro h
    simp only [isTriple] at h
    split at h
    case h_2 => exact absurd h (by simp)
    case h_1 r2 heq1 =>
      split at h
      case h_2 => exact absurd h (by simp)
      case h_1 r3 heq2 =>
        have heq3 : eatDigits1 r3 = some [] := of_decide_eq_true h
        obtain ⟨a, ha, hda, hla⟩ := eatDigits1_eq_some heq1
        obtain ⟨b, hb, hdb, hlb⟩ := eatDigits1_eq_some heq2
        obtain ⟨c, hc, hdc, hlc⟩ := eatDigits1_eq_some heq3
        refine ⟨a, b, c, ha, hb, hc, hda, hdb, hdc, ?_⟩
        rw [hla, hlb, hlc, List.append_nil]
        simp [List.append_assoc]
  · rintro ⟨a, b, c, ha, hb, hc, hda, hdb, hdc, hl⟩
    have hdot : ('.' : Char).isDigit = false := by decide
    have h1 : eatDigits1 (a ++ '.' :: (b ++ '.' :: c)) = some ('.' :: (b ++ '.' :: c)) := by
      rw [eatDigits1_digits_append _ ha hda, List.dropWhile_cons, hdot]
      simp
    have h2 : eatDigits1 (b ++ '.' :: c) = some ('.' :: c) := by
      rw [eatDigits1_digits_append _ hb hdb, List.dropWhile_cons, hdot]
      simp
    have h3 : eatDigits1 c = some [] := by
      simpa using eatDigits1_digits_append (a := c) [] hc hdc
    simp only [isTriple, hl, List.append_assoc, List.cons_append, h1, h2, h3]
    simp

/-- C5: the version-resolution logic of `prompt_for_version` keeps the
requested string exactly when it matches the strict numeric-triple pattern
`^\d+\.\d+\.\d+$`; for every malformed requested string it returns the
current version unchanged (and, being a total function, it never raises). -/
theorem resolveVersion_spec (requested current : String) :
    (tripleShape requested ∧ resolveVersion requested current = requested) ∨
    (¬ tripleShape requested ∧ resolveVersion requested current = current) := by
  by_cases h : isTriple requested.toList = true
  · refine Or.inl ⟨(isTriple_iff requested).1 h, ?_⟩
    unfold resolveVersion
    rw [if_pos h]
  · refine Or.inr ⟨fun hs => h ((isTriple_iff requested).2 hs), ?_⟩
    unfold resolveVersion
    rw [if_neg h]

/-- C6: `get_current_version` refines the spec's `readVersion` contract —
the fallback sections are consulted in priority order (`launcher` then
`install`), the value found has its surrounding quotes stripped, and every
other case (file missing, file unreadable, key absent in both sections)
degrades to `"1.0.0"`; the function is total, so no input makes it fail. -/
theorem get_current_version_spec (r : ReadOutcome) :
    get_current_version r = spec_readVersion r := by
  cases r with
  | missing => rfl
  | unreadable => rfl
  | parsed c =>
    simp only [get_current_version, spec_readVersion, List.filterMap_cons]
    cases h1 : getOpt c "launcher" "version" with
    | some v => simp [h1]
    | none =>
      cases h2 : getOpt c "install" "version" with
      | some v => simp [h2]
      | none => simp [h2]

/-- C10: `list_available_apps` is total over source roots — a nonexistent
root yields the empty list rather than an error, and an existing root
yields exactly the names of the immediate subdirectories containing
`default/app.conf`, in sorted order. -/
theorem list_available_apps_spec (root : Option (List DirEntry)) :
    (root = none → list_available_apps root = []) ∧
    (∀ entries, root = some entries →
      (∀ x, x ∈ list_available_apps root ↔
        ∃ en ∈ entries, en.isDir = true ∧ en.hasAppConf = true ∧ en.name = x) ∧
      (list_available_apps root).Sorted (fun a b : String => a ≤ b)) := by
  constructor
  · rintro rfl
    rfl
  · rintro entries rfl
    constructor
    · intro x
      simp only [list_available_apps, List.mem_mergeSort, List.mem_map, List.mem_filter,
        Bool.and_eq_true]
      constructor
      · rintro ⟨en, ⟨hmem, hdir, hconf⟩, rfl⟩
        exact ⟨en, hmem, hdir, hconf, rfl⟩
      · rintro ⟨en, hmem, hdir, hconf, rfl⟩
        exact ⟨en, ⟨hmem, hdir, hconf⟩, rfl⟩
    · exact List.sorted_mergeSort' _

/-- C10 witness: concrete source roots. -/
theorem list_available_apps_spec_witness :
    list_available_apps none = [] ∧
    ("appA" ∈ list_available_apps (some [⟨"appB", true, true⟩, ⟨"appA", true, true⟩]) ↔
      ∃ en ∈ [DirEntry.mk "appB" true true, DirEntry.mk "appA" true true],
        en.isDir = true ∧ en.hasAppConf = true ∧ en.name = "appA") :=
  ⟨(list_available_apps_spec none).1 rfl,
    ((list_available_apps_spec (some [⟨"appB", true, true⟩, ⟨"appA", true, true⟩])).2
      [⟨"appB", true, true⟩, ⟨"appA", true, true⟩] rfl).1 "appA"⟩

/-- C2 counterexample: a session over units `appA` and `appB` in which
`appB`'s pipeline fails still exits with status 0, contradicting the
claimed non-zero exit status on any unit failure. -/
theorem session_exit_counterexample :
    ¬ ((∃ u ∈ ["appA", "appB"], (fun u => u == "appA") u = false) →
        main_exit (fun u => u == "appA") ["appA", "appB"] ≠ 0) := by
  decide

/-- C2 amended: every selected unit is attempted regardless of earlier
units' failures (one unit's failure never prevents later units from being
deployed), but the session's exit status is 0 whether or not any unit
failed — per-unit failures are only logged, and a non-zero exit arises
only from interrupts or unhandled session-level exceptions. -/
theorem session_attempts_all_units (f : String → Bool) (units : List String) :
    (run_loop f units).1 = units ∧ main_exit f units = 0 := by
  refine ⟨?_, rfl⟩
  induction units with
  | nil => rfl
  | cons u rest ih => simp [run_loop, ih]

/-- C3 counterexample: rewriting the one-section descriptor
`[launcher] version = 1.0.0` in place passes through an on-disk state (the
empty file, right after truncation) that is neither the complete old
content nor the complete new content, contradicting the claimed
all-or-nothing temporary-file-and-rename write. -/
theorem update_write_counterexample :
    ¬ (∀ s ∈ update_write_states [("launcher", [("version", "1.0.0")])] "2.0.0"
          "202501010000" (render [("launcher", [("version", "1.0.0")])]),
        s = render [("launcher", [("version", "1.0.0")])] ∨
        s = render (update_app_version [("launcher", [("version", "1.0.0")])]
          "2.0.0" "202501010000")) := by
  decide

/-- C3 amended: `update_app_version` rewrites the descriptor in place by
truncating the file and writing the new text into it — no temporary
location and no move — so the on-disk states reachable at a failure point
are exactly the old content and every prefix of the new content: the empty
file (truncation already happened) and incomplete writes are reachable,
and the all-or-nothing guarantee does not hold. -/
theorem update_write_inplace (c : Config) (version build : String) (oldText : List Char) :
    (∀ s ∈ update_write_states c version build oldText,
      s = oldText ∨ s <+: render (update_app_version c version build)) ∧
    [] ∈ update_write_states c version build oldText ∧
    render (update_app_version c version build) ∈ update_write_states c version build oldText := by
  refine ⟨?_, ?_, ?_⟩
  · intro s hs
    rcases List.mem_cons.1 hs with rfl | hs
    · exact Or.inl rfl
    · obtain ⟨i, _, rfl⟩ := List.mem_map.1 hs
      exact Or.inr (List.take_prefix i _)
  · refine List.mem_cons.2 (Or.inr (List.mem_map.2 ⟨0, ?_, rfl⟩))
    simp
  · refine List.mem_cons.2 (Or.inr (List.mem_map.2
      ⟨(render (update_app_version c version build)).length, ?_, by simp⟩))
    simp

/-- C3 amended witness: the empty on-disk state is reachable for a concrete
descriptor, and it is a prefix of the new content. -/
theorem update_write_inplace_witness :
    ([] : List Char) ∈ update_write_states [("launcher", [("version", "1.0.0")])] "2.0.0"
      "202501010000" (render [("launcher", [("version", "1.0.0")])]) ∧
    (([] : List Char) = render [("launcher", [("version", "1.0.0")])] ∨
      [] <+: render (update_app_version [("launcher", [("version", "1.0.0")])]
        "2.0.0" "202501010000")) :=
  ⟨(update_write_inplace [("launcher", [("version", "1.0.0")])] "2.0.0" "202501010000"
      (render [("launcher", [("version", "1.0.0")])])).2.1,
    (update_write_inplace [("launcher", [("version", "1.0.0")])] "2.0.0" "202501010000"
      (render [("launcher", [("version", "1.0.0")])])).1 []
      ((update_write_inplace [("launcher", [("version", "1.0.0")])] "2.0.0" "202501010000"
        (render [("launcher", [("version", "1.0.0")])])).2.1)⟩

/-- C1: in every deployment environment, when a target directory exists no
destructive action on the target (`removeTarget`, `copyTarget`) occurs
before the backup archive has been created; when the backup attempt fails
the unit's pipeline aborts with no action taken against the target and no
metadata written; and when no target directory exists no backup archive is
created while the pipeline still proceeds (backup is a no-op success). -/
theorem deploy_backup_before_destroy (e : Env) :
    (e.targetExists = true → backupPrecedesHarm (deploy_app e).2 = true) ∧
    (e.targetExists = true → e.backupOk = false →
      (deploy_app e).1 = false ∧
      Event.removeTarget ∉ (deploy_app e).2 ∧
      Event.copyTarget ∉ (deploy_app e).2 ∧
      Event.writeMetadata ∉ (deploy_app e).2) ∧
    (e.targetExists = false →
      Event.backup ∉ (deploy_app e).2 ∧
      ((validate_app_structure e.app).1 = true → Event.writeMetadata ∈ (deploy_app e).2)) := by
  revert e
  decide

/-- C1 witness: a concrete environment with an existing target and a
failing archiver. -/
theorem deploy_backup_before_destroy_witness :
    backupPrecedesHarm (deploy_app ⟨⟨true, true, true, true⟩, true, false, true, true, true⟩).2
        = true ∧
    (deploy_app ⟨⟨true, true, true, true⟩, true, false, true, true, true⟩).1 = false ∧
    Event.removeTarget ∉ (deploy_app ⟨⟨true, true, true, true⟩, true, false, true, true, true⟩).2 ∧
    Event.backup ∉ (deploy_app ⟨⟨true, true, true, true⟩, false, true, true, true, true⟩).2 :=
  ⟨(deploy_backup_before_destroy ⟨⟨true, true, true, true⟩, true, false, true, true, true⟩).1 rfl,
    ((deploy_backup_before_destroy ⟨⟨true, true, true, true⟩, true, false, true, true, true⟩).2.1
      rfl rfl).1,
    ((deploy_backup_before_destroy ⟨⟨true, true, true, true⟩, true, false, true, true, true⟩).2.1
      rfl rfl).2.1,
    ((deploy_backup_before_destroy ⟨⟨true, true, true, true⟩, false, true, true, true, true⟩).2.2
      rfl).1⟩

/-- C7: a unit missing any of the four required paths fails structure
validation with an error naming a specific missing path, and its pipeline
performs no action at all — in particular no backup archive is created and
no metadata is written, so the BACKED_UP stage is never reached. -/
theorem validate_missing_aborts (e : Env) :
    (∃ p ∈ requiredPaths, hasPath e.app p = false) →
      (validate_app_structure e.app).1 = false ∧
      (∃ p ∈ requiredPaths, hasPath e.app p = false ∧
        (validate_app_structure e.app).2 = some p) ∧
      (deploy_app e).1 = false ∧
      (deploy_app e).2 = [] ∧
      Event.backup ∉ (deploy_app e).2 ∧
      Event.writeMetadata ∉ (deploy_app e).2 := by
  revert e
  decide

/-- C7 witness: a unit missing the `metadata` directory. -/
theorem validate_missing_aborts_witness :
    (validate_app_structure (AppDir.mk true false true true)).1 = false ∧
    (∃ p ∈ requiredPaths, hasPath (AppDir.mk true false true true) p = false ∧
      (validate_app_structure (AppDir.mk true false true true)).2 = some p) ∧
    (deploy_app ⟨⟨true, false, true, true⟩, true, true, true, true, true⟩).2 = [] :=
  ⟨(validate_missing_aborts ⟨⟨true, false, true, true⟩, true, true, true, true, true⟩
      (by decide)).1,
    (validate_missing_aborts ⟨⟨true, false, true, true⟩, true, true, true, true, true⟩
      (by decide)).2.1,
    (validate_missing_aborts ⟨⟨true, false, true, true⟩, true, true, true, true, true⟩
      (by decide)).2.2.2.1⟩

theorem find?_setKV_self (kvs : List (String × String)) (k v : String) :
    (setKV kvs k v).find? (fun kv => kv.1 == k) = some (k, v) := by
  induction kvs with
  | nil => simp [setKV]
  | cons kv rest ih =>
    by_cases h : kv.1 == k
    · simp [setKV, h]
    · simp only [setKV, h, if_false, Bool.false_eq_true]
      rw [List.find?_cons_of_neg _ (by simpa using h)]
      exact ih

theorem find?_setKV_ne (kvs : List (String × String)) (k v k2 : String) (h : k2 ≠ k) :
    (setKV kvs k v).find? (fun kv => kv.1 == k2) = kvs.find? (fun kv => kv.1 == k2) := by
  induction kvs with
  | nil =>
    simp only [setKV, List.find?_nil]
    rw [List.find?_cons_of_neg _ (by simpa using Ne.symm h)]
    rfl
  | cons kv rest ih =>
    by_cases hk : kv.1 == k
    · have hkv : kv.1 = k := by simpa using hk
      simp only [setKV, hk, if_true]
      rw [List.find?_cons_of_neg _ (by simpa using Ne.symm h),
        List.find?_cons_of_neg _ (by simpa [hkv] using Ne.symm h)]
    · simp only [setKV, hk, if_false, Bool.false_eq_true]
      by_cases h2 : kv.1 == k2
      · rw [List.find?_cons_of_pos _ (by simpa using h2),
          List.find?_cons_of_pos _ (by simpa using h2)]
      · rw [List.find?_cons_of_neg _ (by simpa using h2),
          List.find?_cons_of_neg _ (by simpa using h2)]
        exact ih

theorem getOpt_setOpt_ne_key (c : Config) (s k v k2 : String) (h : k2 ≠ k) :
    getOpt (setOpt c s k v) s k2 = getOpt c s k2 := by
  induction c with
  | nil => rfl
  | cons sec rest ih =>
    by_cases hs : sec.1 == s
    · simp only [setOpt, List.map_cons, hs, if_true]
      unfold getOpt
      rw [List.find?_cons_of_pos _ (by simpa using hs),
        List.find?_cons_of_pos _ (by simpa using hs)]
      simp [find?_setKV_ne sec.2 k v k2 h]
    · simp only [setOpt, List.map_cons, hs, if_false, Bool.false_eq_true]
      unfold getOpt
      rw [List.find?_cons_of_neg _ (by simpa using hs),
        List.find?_cons_of_neg _ (by simpa using hs)]
      exact ih

theorem getOpt_setOpt_ne_sec (c : Config) (s k v s2 k2 : String) (h : s2 ≠ s) :
    getOpt (setOpt c s k v) s2 k2 = getOpt c s2 k2 := by
  induction c with
  | nil => rfl
  | cons sec rest ih =>
    by_cases hs : sec.1 == s2
    · have heq : sec.1 = s2 := by simpa using hs
      have hne : (sec.1 == s) = false := by simpa [heq] using h
      simp only [setOpt, List.map_cons, hne, if_false, Bool.false_eq_true]
      unfold getOpt
      simp only [List.find?_cons, hs]
    · unfold getOpt
      by_cases hss : sec.1 == s
      · simp only [setOpt, List.map_cons, hss, if_true]
        rw [List.find?_cons_of_neg _ (by simpa using hs),
          List.find?_cons_of_neg _ (by simpa using hs)]
        exact ih
      · simp only [setOpt, List.map_cons, hss, if_false, Bool.false_eq_true]
        rw [List.find?_cons_of_neg _ (by simpa using hs),
          List.find?_cons_of_neg _ (by simpa using hs)]
        exact ih

theorem getOpt_setOpt_self (c : Config) (s k v : String) (h : hasSection c s = true) :
    getOpt (setOpt c s k v) s k = some v := by
  induction c with
  | nil => simp [hasSection] at h
  | cons sec rest ih =>
    by_cases hs : sec.1 == s
    · simp only [setOpt, List.map_cons, hs, if_true]
      unfold getOpt
      rw [List.find?_cons_of_pos _ (by simpa using hs)]
      simp [find?_setKV_self sec.2 k v]
    · have h2 : hasSection rest s = true := by
        simpa [hasSection, hs] using h
      simp only [setOpt, List.map_cons, hs, if_false, Bool.false_eq_true]
      unfold getOpt
      rw [List.find?_cons_of_neg _ (by simpa using hs)]
      exact ih h2

theorem hasSection_ensure (c : Config) (s : String) :
    hasSection (ensureSection c s) s = true := by
  unfold ensureSection
  by_cases h : hasSection c s
  · rw [if_pos h]
    exact h
  · rw [if_neg h]
    simp [hasSection, List.any_append]

theorem getOpt_ensure (c : Config) (s s2 k : String) :
    getOpt (ensureSection c s) s2 k = getOpt c s2 k := by
  unfold ensureSection
  by_cases h : hasSection c s
  · simp [h]
  · simp only [h, if_false, Bool.false_eq_true]
    unfold getOpt
    rw [List.find?_append]
    cases hf : c.find? (fun sec => sec.1 == s2) with
    | some sec => rfl
    | none =>
      by_cases hs : s == s2 <;> simp [List.find?, hs]

theorem findSection_setOpt_ne (c : Config) (s k v s2 : String) (h : s2 ≠ s) :
    findSection (setOpt c s k v) s2 = findSection c s2 := by
  induction c with
  | nil => rfl
  | cons sec rest ih =>
    by_cases hs : sec.1 == s2
    · have heq : sec.1 = s2 := by simpa using hs
      have hne : (sec.1 == s) = false := by simpa [heq] using h
      simp only [setOpt, List.map_cons, hne, if_false, Bool.false_eq_true]
      unfold findSection
      simp only [List.find?_cons, hs]
    · unfold findSection
      by_cases hss : sec.1 == s
      · simp only [setOpt, List.map_cons, hss, if_true]
        rw [List.find?_cons_of_neg _ (by simpa using hs),
          List.find?_cons_of_neg _ (by simpa using hs)]
        exact ih
      · simp only [setOpt, List.map_cons, hss, if_false, Bool.false_eq_true]
        rw [List.find?_cons_of_neg _ (by simpa using hs),
          List.find?_cons_of_neg _ (by simpa using hs)]
        exact ih

theorem findSection_ensure_ne (c : Config) (s s2 : String) (h : s2 ≠ s) :
    findSection (ensureSection c s) s2 = findSection c s2 := by
  unfold ensureSection
  by_cases hc : hasSection c s
  · simp [hc]
  · simp only [hc, if_false, Bool.false_eq_true]
    unfold findSection
    rw [List.find?_append]
    cases hf : c.find? (fun sec => sec.1 == s2) with
    | some sec => rfl
    | none =>
      have : (s == s2) = false := by
        simp
        exact fun hc2 => h hc2.symm
      simp [List.find?, this]

theorem findSection_update_label_ne (c : Config) (version s : String) (h : s ≠ "launcher") :
    findSection (update_label c version) s = findSection c s := by
  unfold update_label
  cases getOpt c "launcher" "label" with
  | some lbl => exact findSection_setOpt_ne _ _ _ _ _ h
  | none => rfl

theorem getOpt_update_label_ne (c : Config) (version s k : String)
    (h : s ≠ "launcher" ∨ k ≠ "label") :
    getOpt (update_label c version) s k = getOpt c s k := by
  unfold update_label
  cases getOpt c "launcher" "label" with
  | some lbl =>
    by_cases hs : s = "launcher"
    · subst hs
      rcases h with h | h
      · exact absurd rfl h
      · exact getOpt_setOpt_ne_key _ _ _ _ _ h
    · exact getOpt_setOpt_ne_sec _ _ _ _ _ _ hs
  | none => rfl

/-- C9: `update_app_version` touches only `launcher.version`,
`launcher.label` and `install.build` — every section other than `launcher`
and `install` is preserved verbatim (same pair list), and within those two
sections every key other than the ones named keeps its value. -/
theorem update_frame (c : Config) (version build s k : String) :
    (s ≠ "launcher" → s ≠ "install" →
      findSection (update_app_version c version build) s = findSection c s) ∧
    (k ≠ "version" → k ≠ "label" →
      getOpt (update_app_version c version build) "launcher" k = getOpt c "launcher" k) ∧
    (k ≠ "build" →
      getOpt (update_app_version c version build) "install" k = getOpt c "install" k) := by
  have hli : ("launcher" : String) ≠ "install" := by decide
  have hil : ("install" : String) ≠ "launcher" := by decide
  refine ⟨?_, ?_, ?_⟩
  · intro h1 h2
    unfold update_app_version
    rw [findSection_update_label_ne _ _ _ h1, findSection_setOpt_ne _ _ _ _ _ h2,
      findSection_ensure_ne _ _ _ h2, findSection_setOpt_ne _ _ _ _ _ h1,
      findSection_ensure_ne _ _ _ h1]
  · intro h1 h2
    unfold update_app_version
    rw [getOpt_update_label_ne _ _ _ _ (Or.inr h2), getOpt_setOpt_ne_sec _ _ _ _ _ _ hli,
      getOpt_ensure, getOpt_setOpt_ne_key _ _ _ _ _ h1, getOpt_ensure]
  · intro h1
    unfold update_app_version
    rw [getOpt_update_label_ne _ _ _ _ (Or.inl hil), getOpt_setOpt_ne_key _ _ _ _ _ h1,
      getOpt_ensure, getOpt_setOpt_ne_sec _ _ _ _ _ _ hil, getOpt_ensure]

/-- C9 witness: an unrecognized section and unrelated keys of a concrete
descriptor survive the update untouched. -/
theorem update_frame_witness :
    findSection (update_app_version
        [("ui", [("is_visible", "1")]), ("launcher", [("author", "x"), ("version", "1.0.0")])]
        "2.0.0" "202501010000") "ui" =
      findSection [("ui", [("is_visible", "1")]),
        ("launcher", [("author", "x"), ("version", "1.0.0")])] "ui" ∧
    getOpt (update_app_version
        [("ui", [("is_visible", "1")]), ("launcher", [("author", "x"), ("version", "1.0.0")])]
        "2.0.0" "202501010000") "launcher" "author" =
      getOpt [("ui", [("is_visible", "1")]),
        ("launcher", [("author", "x"), ("version", "1.0.0")])] "launcher" "author" :=
  ⟨(update_frame [("ui", [("is_visible", "1")]),
      ("launcher", [("author", "x"), ("version", "1.0.0")])] "2.0.0" "202501010000"
      "ui" "author").1 (by decide) (by decide),
    (update_frame [("ui", [("is_visible", "1")]),
      ("launcher", [("author", "x"), ("version", "1.0.0")])] "2.0.0" "202501010000"
      "ui" "author").2.1 (by decide) (by decide)⟩

theorem isTriple_chars {s : String} (h : isTriple s.toList = true) :
    ∀ x ∈ s.toList, x.isDigit ∨ x = '.' := by
  obtain ⟨a, b, c, _, _, _, hda, hdb, hdc, hl⟩ := (isTriple_iff s).1 h
  intro x hx
  rw [hl] at hx
  rcases List.mem_append.1 hx with hx | hx
  · rcases List.mem_append.1 hx with hx | hx
    · exact Or.inl (hda x hx)
    · rcases List.mem_cons.1 hx with rfl | hx
      · exact Or.inr rfl
      · exact Or.inl (hdb x hx)
  · rcases List.mem_cons.1 hx with rfl | hx
    · exact Or.inr rfl
    · exact Or.inl (hdc x hx)

theorem stripQuotes_eq_self (s : String) (h : ∀ x ∈ s.toList, (x == '"') = false) :
    stripQuotes s = s := by
  unfold stripQuotes
  have h1 : s.toList.dropWhile (fun c => c == '"') = s.toList := by
    cases hs : s.toList with
    | nil => rfl
    | cons c t =>
      rw [List.dropWhile_cons]
      have hc := h c (by rw [hs]; exact List.mem_cons_self c t)
      simp [hc]
  have h2 : List.rdropWhile (fun c => c == '"') s.toList = s.toList :=
    List.rdropWhile_eq_self_iff.mpr (fun hl => by
      simpa using h _ (List.getLast_mem hl))
  rw [h1, h2]
  cases s
  rfl

/-- C8: writing a well-formed version (matching the strict numeric triple
pattern, e.g. `3.1.4`) through `update_app_version` and immediately
reading it back through `get_current_version` returns exactly the written
version. -/
theorem version_roundtrip (c : Config) (v build : String) (hv : isTriple v.toList = true) :
    get_current_version (ReadOutcome.parsed (update_app_version c v build)) = v := by
  have hv1 : getOpt (update_app_version c v build) "launcher" "version" = some v := by
    unfold update_app_version
    rw [getOpt_update_label_ne _ _ _ _ (Or.inr (by decide)),
      getOpt_setOpt_ne_sec _ _ _ _ _ _ (by decide), getOpt_ensure]
    exact getOpt_setOpt_self _ _ _ _ (hasSection_ensure c "launcher")
  have hchars : ∀ x ∈ v.toList, (x == '"') = false := by
    intro x hx
    rcases isTriple_chars hv x hx with hd | rfl
    · have hne : x ≠ '"' := by
        intro hq
        rw [hq] at hd
        exact absurd hd (by decide)
      simpa using hne
    · decide
  simp only [get_current_version, hv1]
  exact stripQuotes_eq_self v hchars

/-- C8 witness: a concrete round-trip through an initially empty
descriptor. -/
theorem version_roundtrip_witness :
    isTriple "3.1.4".toList = true ∧
    get_current_version (ReadOutcome.parsed
      (update_app_version [] "3.1.4" "202501010000")) = "3.1.4" :=
  ⟨by decide, version_roundtrip [] "3.1.4" "202501010000" (by decide)⟩

theorem matchVTriple_iff (l : List Char) :
    matchVTriple l = true ↔
      ∃ a b c rest : List Char,
        a ≠ [] ∧ b ≠ [] ∧ c ≠ [] ∧
        (∀ x ∈ a, x.isDigit) ∧ (∀ x ∈ b, x.isDigit) ∧ (∀ x ∈ c, x.isDigit) ∧
        l = 'v' :: (a ++ '.' :: (b ++ '.' :: (c ++ rest))) := by
  constructor
  · intro h
    simp only [matchVTriple] at h
    split at h
    case h_2 => exact absurd h (by simp)
    case h_1 r heq0 =>
      split at h
      case h_2 => exact absurd h (by simp)
      case h_1 r2 heq1 =>
        split at h
        case h_2 => exact absurd h (by simp)
        case h_1 r3 heq2 =>
          obtain ⟨r4, heq3⟩ := Option.isSome_iff_exists.1 h
          obtain ⟨a, ha, hda, hla⟩ := eatDigits1_eq_some heq1
          obtain ⟨b, hb, hdb, hlb⟩ := eatDigits1_eq_some heq2
          obtain ⟨c, hc, hdc, hlc⟩ := eatDigits1_eq_some heq3
          exact ⟨a, b, c, r4, ha, hb, hc, hda, hdb, hdc, by rw [hla, hlb, hlc]⟩
  · rintro ⟨a, b, c, rest, ha, hb, hc, hda, hdb, hdc, hl⟩
    have hdot : ('.' : Char).isDigit = false := by decide
    have h1 : eatDigits1 (a ++ '.' :: (b ++ '.' :: (c ++ rest)))
        = some ('.' :: (b ++ '.' :: (c ++ rest))) := by
      rw [eatDigits1_digits_append _ ha hda, List.dropWhile_cons, hdot]
      simp
    have h2 : eatDigits1 (b ++ '.' :: (c ++ rest)) = some ('.' :: (c ++ rest)) := by
      rw [eatDigits1_digits_append _ hb hdb, List.dropWhile_cons, hdot]
      simp
    have h3 : (eatDigits1 (c ++ rest)).isSome := by
      rw [eatDigits1_digits_append _ hc hdc]
      rfl
    simp only [hl, matchVTriple, h1, h2, h3]

theorem matchVTriple_append {l : List Char} (t : List Char)
    (h : matchVTriple l = true) : matchVTriple (l ++ t) = true := by
  obtain ⟨a, b, c, rest, ha, hb, hc, hda, hdb, hdc, hl⟩ := (matchVTriple_iff l).1 h
  refine (matchVTriple_iff (l ++ t)).2 ⟨a, b, c, rest ++ t, ha, hb, hc, hda, hdb, hdc, ?_⟩
  simp [hl, List.append_assoc]

theorem matchWsVTriple_append {l : List Char} (t : List Char)
    (h : matchWsVTriple l = true) : matchWsVTriple (l ++ t) = true := by
  cases l with
  | nil => simp [matchWsVTriple] at h
  | cons c rest =>
    simp only [List.cons_append, matchWsVTriple, Bool.and_eq_true] at h ⊢
    refine ⟨h.1, ?_⟩
    cases hd : rest.dropWhile Char.isWhitespace with
    | nil =>
      rw [hd] at h
      exact absurd h.2 (by simp [matchVTriple])
    | cons e y =>
      have hda : (rest ++ t).dropWhile Char.isWhitespace
          = (rest.dropWhile Char.isWhitespace) ++ t := by
        rw [List.dropWhile_append, hd]
        simp
      rw [hda]
      exact matchVTriple_append t h.2

theorem matchVTriple_append_space {y w : List Char}
    (h : matchVTriple (y ++ ' ' :: w) = true) : matchVTriple y = true := by
  obtain ⟨a, b, c, rest, ha, hb, hc, hda, hdb, hdc, hl⟩ :=
    (matchVTriple_iff (y ++ ' ' :: w)).1 h
  have hl2 : y ++ ' ' :: w = ('v' :: (a ++ '.' :: (b ++ '.' :: c))) ++ rest := by
    simp [hl, List.append_assoc]
  have hnosp : ∀ x ∈ 'v' :: (a ++ '.' :: (b ++ '.' :: c)), x ≠ ' ' := by
    intro x hx
    rcases List.mem_cons.1 hx with rfl | hx
    · decide
    rcases List.mem_append.1 hx with hx | hx
    · intro he
      subst he
      exact absurd (hda _ hx) (by decide)
    rcases List.mem_cons.1 hx with rfl | hx
    · decide
    rcases List.mem_append.1 hx with hx | hx
    · intro he
      subst he
      exact absurd (hdb _ hx) (by decide)
    rcases List.mem_cons.1 hx with rfl | hx
    · decide
    · intro he
      subst he
      exact absurd (hdc _ hx) (by decide)
  rcases List.append_eq_append_iff.1 hl2 with ⟨u, hp, hw⟩ | ⟨u, hy, _⟩
  · cases u with
    | nil =>
      refine (matchVTriple_iff y).2 ⟨a, b, c, [], ha, hb, hc, hda, hdb, hdc, ?_⟩
      simpa using hp.symm
    | cons z u2 =>
      exfalso
      rw [List.cons_append] at hw
      injection hw with hz _
      have hzP : z ∈ 'v' :: (a ++ '.' :: (b ++ '.' :: c)) := by
        rw [hp]
        exact List.mem_append.2 (Or.inr (List.mem_cons_self _ _))
      exact hnosp z hzP hz.symm
  · exact (matchVTriple_iff y).2 ⟨a, b, c, u, ha, hb, hc, hda, hdb, hdc,
      by simpa [List.append_assoc] using hy⟩

theorem dropWhile_cons_head {α : Type} {p : α → Bool} {l : List α} {e : α} {y : List α}
    (h : l.dropWhile p = e :: y) : p e = false := by
  induction l with
  | nil => simp at h
  | cons c t ih =>
    rw [List.dropWhile_cons] at h
    by_cases hc : p c = true
    · rw [if_pos hc] at h
      exact ih h
    · rw [if_neg hc] at h
      injection h with h1 _
      rw [← h1]
      exact Bool.eq_false_iff.mpr hc

theorem stripVS_extends (l : List Char) : ∃ t, stripVS l ++ t = l := by
  induction l with
  | nil => exact ⟨[], rfl⟩
  | cons c rest ih =>
    by_cases h : matchWsVTriple (c :: rest) = true
    · exact ⟨c :: rest, by simp [stripVS, h]⟩
    · obtain ⟨t, ht⟩ := ih
      exact ⟨t, by simp [stripVS, h, ht]⟩

theorem stripParen_extends (l : List Char) : ∃ t, stripParen l ++ t = l := by
  induction l with
  | nil => exact ⟨[], rfl⟩
  | cons c rest ih =>
    by_cases h : matchParenEnd (c :: rest) = true
    · exact ⟨c :: rest, by simp [stripParen, h]⟩
    · obtain ⟨t, ht⟩ := ih
      exact ⟨t, by simp [stripParen, h, ht]⟩

theorem noOcc_tail {c : Char} {l : List Char} (h : noOcc (c :: l) = true) :
    noOcc l = true := by
  simp only [noOcc, Bool.and_eq_true] at h
  exact h.2

theorem noOcc_head {c : Char} {l : List Char} (h : noOcc (c :: l) = true) :
    matchWsVTriple (c :: l) = false := by
  simp only [noOcc, Bool.and_eq_true, Bool.not_eq_true'] at h
  exact h.1

theorem noOcc_suffix {u t : List Char} (h : noOcc (u ++ t) = true) : noOcc t = true := by
  induction u with
  | nil => exact h
  | cons c u2 ih =>
    rw [List.cons_append] at h
    exact ih (noOcc_tail h)

theorem noOcc_append_left {y t : List Char} (h : noOcc (y ++ t) = true) :
    noOcc y = true := by
  induction y with
  | nil => rfl
  | cons c y2 ih =>
    rw [List.cons_append] at h
    have h1 := noOcc_head h
    have h2 := noOcc_tail h
    simp only [noOcc, Bool.and_eq_true, Bool.not_eq_true']
    refine ⟨?_, ih h2⟩
    by_cases hm : matchWsVTriple (c :: y2) = true
    · exfalso
      have h3 := matchWsVTriple_append t hm
      rw [List.cons_append, h1] at h3
      simp at h3
    · exact Bool.eq_false_iff.mpr hm

theorem noOcc_stripVS (l : List Char) : noOcc (stripVS l) = true := by
  induction l with
  | nil => rfl
  | cons c rest ih =>
    by_cases h : matchWsVTriple (c :: rest) = true
    · simp [stripVS, h, noOcc]
    · rw [show stripVS (c :: rest) = c :: stripVS rest from by simp [stripVS, h]]
      simp only [noOcc, Bool.and_eq_true, Bool.not_eq_true']
      refine ⟨?_, ih⟩
      by_cases hm : matchWsVTriple (c :: stripVS rest) = true
      · exfalso
        obtain ⟨t, ht⟩ := stripVS_extends rest
        have h3 := matchWsVTriple_append t hm
        rw [List.cons_append, ht] at h3
        exact h h3
      · exact Bool.eq_false_iff.mpr hm

theorem stripVS_append_vtriple (b vch : List Char)
    (hvm : matchVTriple ('v' :: vch) = true) :
    noOcc b = true → (∀ hb : b ≠ [], (b.getLast hb).isWhitespace = false) →
    stripVS (b ++ ' ' :: 'v' :: vch) = b := by
  induction b with
  | nil =>
    intro _ _
    have hvws : ('v' : Char).isWhitespace = false := by decide
    have hdw : ('v' :: vch).dropWhile Char.isWhitespace = 'v' :: vch := by
      rw [List.dropWhile_cons, hvws]
      simp
    have hm : matchWsVTriple (' ' :: 'v' :: vch) = true := by
      simp only [matchWsVTriple, hdw, Bool.and_eq_true]
      exact ⟨by decide, hvm⟩
    simp [stripVS, hm]
  | cons x b2 ih =>
    intro hno hnt
    have hno2 : noOcc b2 = true := noOcc_tail hno
    have hhead : matchWsVTriple (x :: b2) = false := noOcc_head hno
    have hnt2 : ∀ hb : b2 ≠ [], (b2.getLast hb).isWhitespace = false := by
      intro hb
      have hx := hnt (by simp)
      rwa [List.getLast_cons hb] at hx
    have hm : matchWsVTriple (x :: (b2 ++ ' ' :: 'v' :: vch)) = false := by
      by_cases hx : x.isWhitespace = true
      · simp only [matchWsVTriple, hx, Bool.true_and]
        by_cases hm2 : matchVTriple
            ((b2 ++ ' ' :: 'v' :: vch).dropWhile Char.isWhitespace) = true
        · exfalso
          cases hdw : b2.dropWhile Char.isWhitespace with
          | nil =>
            have hall := List.dropWhile_eq_nil_iff.1 hdw
            cases b2 with
            | nil =>
              have hlast := hnt (by simp)
              rw [List.getLast_singleton] at hlast
              rw [hlast] at hx
              simp at hx
            | cons d b3 =>
              have hws := hall _ (List.getLast_mem (by simp : (d : Char) :: b3 ≠ []))
              have hlast := hnt (by simp)
              rw [List.getLast_cons (by simp : (d : Char) :: b3 ≠ [])] at hlast
              rw [hlast] at hws
              simp at hws
          | cons e y2 =>
            have he : Char.isWhitespace e = false := dropWhile_cons_head hdw
            have hb2app : (b2 ++ ' ' :: 'v' :: vch).dropWhile Char.isWhitespace
                = (e :: y2) ++ ' ' :: 'v' :: vch := by
              rw [List.dropWhile_append, hdw]
              simp
            rw [hb2app] at hm2
            have hy : matchVTriple (e :: y2) = true := matchVTriple_append_space hm2
            have hta : List.takeWhile Char.isWhitespace b2
                ++ List.dropWhile Char.isWhitespace b2 = b2 :=
              List.takeWhile_append_dropWhile Char.isWhitespace b2
            rw [hdw] at hta
            cases hw1 : b2.takeWhile Char.isWhitespace with
            | nil =>
              have hb2 : b2 = e :: y2 := by
                rw [← hta, hw1]
                rfl
              have hocc : matchWsVTriple (x :: b2) = true := by
                simp only [matchWsVTriple, Bool.and_eq_true]
                exact ⟨hx, by rw [hdw]; exact hy⟩
              rw [hocc] at hhead
              simp at hhead
            | cons z w2 =>
              obtain ⟨w3, zl, hconcat⟩ : ∃ w3 zl, z :: w2 = w3 ++ [zl] := by
                rcases List.eq_nil_or_concat (z :: w2) with habs | ⟨w3, zl, hcc⟩
                · simp at habs
                · exact ⟨w3, zl, by rw [hcc, List.concat_eq_append]⟩
              have hzl_ws : Char.isWhitespace zl = true := by
                have hmem : zl ∈ b2.takeWhile Char.isWhitespace := by
                  rw [hw1, hconcat]
                  exact List.mem_append.2 (Or.inr (by simp))
                exact List.mem_takeWhile_imp hmem
              have hb2 : b2 = w3 ++ (zl :: e :: y2) := by
                rw [← hta, hw1, hconcat]
                simp [List.append_assoc]
              have hocc : matchWsVTriple (zl :: e :: y2) = true := by
                simp only [matchWsVTriple, Bool.and_eq_true]
                refine ⟨hzl_ws, ?_⟩
                rw [List.dropWhile_cons, he]
                simpa using hy
              have hno3 : noOcc (zl :: e :: y2) = true :=
                @noOcc_suffix w3 (zl :: e :: y2) (by rw [← hb2]; exact hno2)
              rw [noOcc_head hno3] at hocc
              simp at hocc
        · exact Bool.eq_false_iff.mpr hm2
      · simp only [matchWsVTriple]
        rw [Bool.eq_false_iff.mpr hx]
        simp
    rw [List.cons_append,
      show stripVS (x :: (b2 ++ ' ' :: 'v' :: vch))
          = x :: stripVS (b2 ++ ' ' :: 'v' :: vch) from by simp [stripVS, hm],
      ih hno2 hnt2]

theorem noOcc_strippedBase (label : String) : noOcc (strippedBase label) = true := by
  have h1 : noOcc (stripVS label.toList) = true := noOcc_stripVS _
  obtain ⟨t1, ht1⟩ := stripParen_extends (stripVS label.toList)
  have h2 : noOcc (stripParen (stripVS label.toList)) = true :=
    noOcc_append_left (by rw [ht1]; exact h1)
  obtain ⟨u, hu⟩ := (List.dropWhile_suffix Char.isWhitespace :
    _ <:+ stripParen (stripVS label.toList))
  have h3 : noOcc ((stripParen (stripVS label.toList)).dropWhile Char.isWhitespace) = true :=
    noOcc_suffix (by rw [hu]; exact h2)
  obtain ⟨t2, ht2⟩ := List.rdropWhile_prefix Char.isWhitespace
    ((stripParen (stripVS label.toList)).dropWhile Char.isWhitespace)
  have ht2b : strippedBase label ++ t2
      = (stripParen (stripVS label.toList)).dropWhile Char.isWhitespace := ht2
  exact noOcc_append_left (by rw [ht2b]; exact h3)

theorem noTrail_strippedBase (label : String) :
    ∀ hb : strippedBase label ≠ [], ((strippedBase label).getLast hb).isWhitespace = false := by
  intro hb
  have h := List.rdropWhile_last_not Char.isWhitespace
    ((stripParen (stripVS label.toList)).dropWhile Char.isWhitespace) hb
  simpa using h

theorem pyStrip_strippedBase (label : String) :
    pyStrip (strippedBase label) = strippedBase label := by
  unfold pyStrip
  have hdz : (strippedBase label).dropWhile Char.isWhitespace = strippedBase label := by
    cases hr : strippedBase label with
    | nil => rfl
    | cons e r2 =>
      obtain ⟨t, ht⟩ := List.rdropWhile_prefix Char.isWhitespace
        ((stripParen (stripVS label.toList)).dropWhile Char.isWhitespace)
      have htb : strippedBase label ++ t
          = (stripParen (stripVS label.toList)).dropWhile Char.isWhitespace := ht
      rw [hr] at htb
      have hz : (stripParen (stripVS label.toList)).dropWhile Char.isWhitespace
          = e :: (r2 ++ t) := by
        rw [← htb]
        simp
      have he : Char.isWhitespace e = false := dropWhile_cons_head hz
      rw [List.dropWhile_cons, he]
      simp
  rw [hdz]
  exact List.rdropWhile_idempotent _ _

/-- C4 counterexample: the strip-then-append label rewrite is not
idempotent for every base label — a label ending in two stacked
parenthesized groups loses one group per application, so the second
application produces a different label than the first. -/
theorem rewriteLabel_not_idempotent :
    rewriteLabel (rewriteLabel "Foo (a) (b)" "2.0.0") "2.0.0" ≠
      rewriteLabel "Foo (a) (b)" "2.0.0" := by
  decide

/-- C4 amended: the strip-then-append rewrite is idempotent for every
well-formed version (strict numeric triple) and every label whose stripped
base does not itself still end in a parenthesized suffix (the parenthesis
strip removes only one trailing group per application, so stacked trailing
groups - and only those - break idempotence); in particular rewriting
`"Foo v1.2.3"` to version `2.0.0` yields exactly `"Foo v2.0.0"`. -/
theorem rewriteLabel_idem (label v : String) (hv : isTriple v.toList = true)
    (hp : stripParen (strippedBase label) = strippedBase label) :
    rewriteLabel (rewriteLabel label v) v = rewriteLabel label v ∧
    rewriteLabel "Foo v1.2.3" "2.0.0" = "Foo v2.0.0" := by
  refine ⟨?_, by decide⟩
  have hvm : matchVTriple ('v' :: v.toList) = true := by
    obtain ⟨a, b, c, ha, hb, hc, hda, hdb, hdc, hl⟩ := (isTriple_iff v).1 hv
    refine (matchVTriple_iff _).2 ⟨a, b, c, [], ha, hb, hc, hda, hdb, hdc, ?_⟩
    have hl2 : v.toList = a ++ '.' :: (b ++ '.' :: c) := by
      rw [hl, List.append_assoc, List.cons_append]
    simp only [List.append_nil]
    rw [← hl2]
  have hSB : strippedBase (rewriteLabel label v) = strippedBase label := by
    show pyStrip (stripParen (stripVS ((rewriteLabel label v).toList))) = strippedBase label
    have hTL : (rewriteLabel label v).toList
        = strippedBase label ++ ' ' :: 'v' :: v.toList := rfl
    rw [hTL,
      stripVS_append_vtriple _ _ hvm (noOcc_strippedBase label) (noTrail_strippedBase label),
      hp]
    exact pyStrip_strippedBase label
  calc rewriteLabel (rewriteLabel label v) v
      = ⟨strippedBase (rewriteLabel label v) ++ ' ' :: 'v' :: v.toList⟩ := rfl
    _ = ⟨strippedBase label ++ ' ' :: 'v' :: v.toList⟩ := by rw [hSB]
    _ = rewriteLabel label v := rfl

/-- C4 amended witness: a concrete label already carrying a version suffix
whose stripped base has no trailing parenthesized group. -/
theorem rewriteLabel_idem_witness :
    isTriple ("2.0.0" : String).toList = true ∧
    stripParen (strippedBase "Test App v1.2.3") = strippedBase "Test App v1.2.3" ∧
    rewriteLabel (rewriteLabel "Test App v1.2.3" "2.0.0") "2.0.0" =
      rewriteLabel "Test App v1.2.3" "2.0.0" :=
  ⟨by decide, by decide,
    (rewriteLabel_idem "Test App v1.2.3" "2.0.0" (by decide) (by decide)).1⟩

end Splunk
